/-
Verification development for the portfolio-analytics core
(`src/portfolio_analytics/optimizer.py` and
`src/portfolio_analytics/risk_metrics.py`).

The Python code is shallowly embedded over exact rationals (ℚ).  Real
square roots (np.sqrt of a nonnegative quadratic form) are represented
with `Real.sqrt`; results whose value can be the IEEE specials NaN or
+inf are represented with explicit sum types (`Option` for a mean of an
empty sample, `SortinoValue` for the Sortino ratio).  Python exceptions
are represented with `Except PyErr`.
-/
import Mathlib

namespace PortfolioAnalytics

/-- Python exception values raised (or raisable) by the embedded code. -/
inductive PyErr
  | valueError (msg : String)
  | nameError (msg : String)
  | indexError (msg : String)
  | zeroDivisionError (msg : String)
  deriving DecidableEq, Repr

/-- `np.sum(a * b)` / `np.dot(a, b)` for equal-length vectors:
elementwise product, summed. -/
def npDot (a b : List ℚ) : ℚ :=
  ((a.zip b).map (fun p => p.1 * p.2)).sum

/-- `np.dot(M, v)`: matrix-vector product, row by row. -/
def matVec (m : List (List ℚ)) (v : List ℚ) : List ℚ :=
  m.map (fun row => npDot row v)

/-- `np.dot(w.T, np.dot(cov, w))`: the quadratic form `wᵀ Σ w`. -/
def quadForm (m : List (List ℚ)) (w : List ℚ) : ℚ :=
  npDot w (matVec m w)

/-- `np.mean` / `pd.Series.mean`: `none` models the NaN that numpy and
pandas produce for an empty sample. -/
def seriesMean (xs : List ℚ) : Option ℚ :=
  if xs.isEmpty then none else some (xs.sum / xs.length)

/-- `np.min` / reduction minimum: `none` models the ValueError numpy
raises on a zero-size reduction. -/
def npMin : List ℚ → Option ℚ
  | [] => none
  | x :: xs => some (xs.foldl min x)

/-- `np.max` / reduction maximum. -/
def npMax : List ℚ → Option ℚ
  | [] => none
  | x :: xs => some (xs.foldl max x)

/-- Ascending sort, as numpy performs internally for percentiles. -/
def sortQ (xs : List ℚ) : List ℚ :=
  xs.insertionSort (· ≤ ·)

/-- The linear-interpolation percentile of an already sorted sample `s`
at percentage `q` (numpy's default interpolation): with
`pos = q/100 * (n-1)`, `i = ⌊pos⌋` and `g = pos - i`, the value is
`s[i] + g * (s[i+1] - s[i])` (and `s[i]` when `g = 0`, which covers
`i = n-1`). -/
def percentileSorted (s : List ℚ) (q : ℚ) : ℚ :=
  let pos : ℚ := q / 100 * ((s.length : ℚ) - 1)
  let i : ℕ := (⌊pos⌋).toNat
  let g : ℚ := pos - (i : ℚ)
  let lo : ℚ := s.getD i 0
  let hi : ℚ := s.getD (i + 1) lo
  lo + g * (hi - lo)

/-- `np.percentile(xs, q)` with the default linear interpolation.
numpy validates the percentage range first and rejects an empty data
array with an IndexError. -/
def npPercentile (xs : List ℚ) (q : ℚ) : Except PyErr ℚ :=
  if q < 0 ∨ 100 < q then
    .error (.valueError "Percentiles must be in the range [0, 100]")
  else if xs.isEmpty then
    .error (.indexError "cannot do a non-empty take from an empty axes.")
  else
    .ok (percentileSorted (sortQ xs) q)

/-! ## The returns data frame

A pandas `DataFrame` of historical returns: one column per asset, one
row per period.  `assets` is the number of columns; each row lists that
period's per-asset returns (the data-model invariant gives every row
length `assets`; out-of-range reads default to 0 and are never
exercised by well-formed data). -/

structure ReturnsData where
  assets : ℕ
  rows : List (List ℚ)
  deriving DecidableEq, Repr

/-- Column `j` of the data frame, as a list over periods. -/
def colVals (d : ReturnsData) (j : ℕ) : List ℚ :=
  d.rows.map (fun row => row.getD j 0)

/-- `returns.mean()` for column `j` (per-period, not annualized). -/
def colMean (d : ReturnsData) (j : ℕ) : ℚ :=
  (colVals d j).sum / ((colVals d j).length : ℚ)

/-- `returns.cov()` entry `(j, k)`: pandas sample covariance with
denominator `n - 1`.  Rational division by zero is 0, standing in for
the non-raising NaN pandas produces when `n ≤ 1`; no claim inspects
that corner numerically. -/
def sampleCov (d : ReturnsData) (j k : ℕ) : ℚ :=
  (((colVals d j).zip (colVals d k)).map
      (fun p => (p.1 - colMean d j) * (p.2 - colMean d k))).sum
    / ((d.rows.length : ℚ) - 1)

/-! ## `optimizer.py`: class `PortfolioOptimizer` -/

/-- The state `__init__` builds: the retained returns frame, the
annualized mean-return vector `μ = returns.mean() * 252` and the
annualized covariance matrix `Σ = returns.cov() * 252`. -/
structure OptState where
  returns : ReturnsData
  mean_returns : List ℚ
  cov_matrix : List (List ℚ)
  deriving DecidableEq, Repr

/-- `PortfolioOptimizer.__init__`: the constructor only stores the data
and derives μ and Σ.  It contains no `raise` statement and no input
validation, and pandas `mean`/`cov` raise on no input shape, so the
result is always `.ok`. -/
def PortfolioOptimizer.init (d : ReturnsData) : Except PyErr OptState :=
  .ok
    { returns := d
      mean_returns := (List.range d.assets).map (fun j => colMean d j * 252)
      cov_matrix :=
        (List.range d.assets).map
          (fun j => (List.range d.assets).map (fun k => sampleCov d j k * 252)) }

/-- `optimize_sharpe_ratio`: the function performs no input validation.
It computes `num_assets`, builds the constraint list and the objective
closure, forms the uniform initial guess `x0 = [1/num_assets] * num_assets`
— evaluating `1/num_assets` raises ZeroDivisionError when the asset
universe is empty — and otherwise hands the problem to SLSQP.  The
solver is a black box modelled by its returned iterate `result_x`;
the reported Sharpe ratio is recomputed at `result_x`. -/
noncomputable def optimize_sharpe_ratio (s : OptState) (risk_free_rate : ℚ)
    (result_x : List ℚ) : Except PyErr (List ℚ × ℝ) :=
  let num_assets := s.returns.assets
  if num_assets = 0 then
    .error (.zeroDivisionError "division by zero")
  else
    .ok (result_x,
      ((npDot s.mean_returns result_x : ℚ) - (risk_free_rate : ℚ)) /
        Real.sqrt (quadForm s.cov_matrix result_x))

/-- `np.linspace(a, b, n)` with the default `endpoint=True`: `n = 0`
gives `[]`, `n = 1` gives `[a]`, and `n ≥ 2` gives
`a + i * (b - a)/(n - 1)` for `i = 0, …, n-1`. -/
def linspace (a b : ℚ) (n : ℕ) : List ℚ :=
  if n = 1 then [a]
  else (List.range n).map (fun (i : ℕ) => a + (i : ℚ) * ((b - a) / ((n : ℚ) - 1)))

/-- One row of the frontier result frame: the target return, the
volatility realized by the solver's weights, and those weights. -/
structure FrontierPoint where
  ret : ℚ
  volatility : ℝ
  weights : List ℚ

/-- `efficient_frontier(num_portfolios)`: sweep `num_portfolios` targets
from `np.min(μ)` to `np.max(μ)` by `np.linspace`; for each target, call
SLSQP (modelled by `solver_x`, mapping the target to the returned
`result.x`) and record the target, `sqrt(result.x ᵀ Σ result.x)` and
`result.x`.  On an empty asset universe `np.min` raises. -/
noncomputable def efficient_frontier (s : OptState) (solver_x : ℚ → List ℚ)
    (num_portfolios : ℕ) : Except PyErr (List FrontierPoint) :=
  match npMin s.mean_returns, npMax s.mean_returns with
  | some min_ret, some max_ret =>
      .ok ((linspace min_ret max_ret num_portfolios).map (fun t =>
        { ret := t
          volatility := Real.sqrt (quadForm s.cov_matrix (solver_x t))
          weights := solver_x t }))
  | _, _ =>
      .error (.valueError
        "zero-size array to reduction operation minimum which has no identity")

/-- The metrics dictionary returned by `calculate_metrics`. -/
structure PortfolioMetrics where
  expected_return : ℚ
  volatility : ℝ
  sharpe_ratio : ℝ

/-- `calculate_metrics(weights)`: expected return `np.sum(μ * w)`,
volatility `sqrt(wᵀ Σ w)`, and a Sharpe ratio computed against the
hard-coded literal `0.02` (the source comment reads "Assuming 2%
risk-free rate"); the function takes no risk-free-rate argument and
performs no validation of `w`. -/
noncomputable def calculate_metrics (s : OptState) (weights : List ℚ) :
    PortfolioMetrics :=
  let portfolio_return : ℚ := npDot s.mean_returns weights
  let portfolio_std : ℝ := Real.sqrt (quadForm s.cov_matrix weights)
  { expected_return := portfolio_return
    volatility := portfolio_std
    sharpe_ratio := ((portfolio_return : ℝ) - 2 / 100) / portfolio_std }

/-! ## `risk_metrics.py`: class `RiskAnalyzer` -/

/-- The module's top-level bound names: `import numpy as np`,
`import pandas as pd`, `from typing import Dict, Optional`, and the
class itself.  Notably `norm` (scipy.stats) is never imported. -/
def riskMetricsTopLevelNames : List String :=
  ["np", "pd", "Dict", "Optional", "RiskAnalyzer"]

/-- `_calculate_portfolio_returns`: `returns.dot(weights)`, one realized
portfolio return per period. -/
def portfolio_returns_of (d : ReturnsData) (weights : List ℚ) : List ℚ :=
  d.rows.map (fun row => npDot row weights)

/-- `calculate_var(confidence_level, method)` on the cached
portfolio-return series `rets`.
* `'historical'`: `-np.percentile(rets, (1 - confidence_level) * 100)`.
* `'parametric'`: line 45 evaluates `norm.ppf(confidence_level)`, but
  `norm` is not among `riskMetricsTopLevelNames` (see
  `norm_not_imported`), so name resolution raises NameError before any
  arithmetic.
* anything else: `ValueError(f"Unsupported VaR method: {method}")`. -/
def calculate_var (rets : List ℚ) (confidence_level : ℚ) (method : String) :
    Except PyErr ℚ :=
  if method = "historical" then
    (npPercentile rets ((1 - confidence_level) * 100)).map (fun v => -v)
  else if method = "parametric" then
    .error (.nameError "name 'norm' is not defined")
  else
    .error (.valueError ("Unsupported VaR method: " ++ method))

/-- `calculate_expected_shortfall(confidence_level)`: compute VaR with
the default `'historical'` method, then negate the mean of the
portfolio returns `≤ -VaR`.  `.ok none` models the non-raising NaN that
a mean over an empty selection would give. -/
def calculate_expected_shortfall (rets : List ℚ) (confidence_level : ℚ) :
    Except PyErr (Option ℚ) :=
  (calculate_var rets confidence_level "historical").map (fun var =>
    (seriesMean (rets.filter (fun r => r ≤ -var))).map (fun m => -m))

/-- `(1 + returns).cumprod()` with running accumulator `acc`. -/
def cumprodFrom : List ℚ → ℚ → List ℚ
  | [], _ => []
  | r :: rs, acc => (acc * (1 + r)) :: cumprodFrom rs (acc * (1 + r))

/-- The cumulative wealth curve `Cₜ = Π_{i ≤ t} (1 + rᵢ)`. -/
def cumulative_returns (rets : List ℚ) : List ℚ :=
  cumprodFrom rets 1

/-- `expanding().max()` after the first element, with seed `m`. -/
def rollingMaxFrom : List ℚ → ℚ → List ℚ
  | [], _ => []
  | x :: xs, m => max m x :: rollingMaxFrom xs (max m x)

/-- `cumulative_returns.expanding().max()`: the running maximum `Mₜ`. -/
def rolling_max : List ℚ → List ℚ
  | [] => []
  | x :: xs => x :: rollingMaxFrom xs x

/-- `cumulative_returns / rolling_max - 1`, elementwise. -/
def drawdowns (rets : List ℚ) : List ℚ :=
  (List.zip (cumulative_returns rets) (rolling_max (cumulative_returns rets))).map
    (fun p => p.1 / p.2 - 1)

/-- `pd.Series.min()`: `none` models the NaN of an empty series. -/
def seriesMin : List ℚ → Option ℚ
  | [] => none
  | x :: xs => some (xs.foldl min x)

/-- `calculate_max_drawdown()`: `drawdowns.min()`. -/
def calculate_max_drawdown (rets : List ℚ) : Option ℚ :=
  seriesMin (drawdowns rets)

/-- The float returned by `calculate_sortino_ratio`, kept symbolic:
`nan` is IEEE NaN, `inf` is `np.inf`, and `val num msq` is the finite
value `num / (sqrt msq * sqrt 252)` with both components exact. -/
inductive SortinoValue
  | nan
  | inf
  | val (num msq : ℚ)
  deriving DecidableEq, Repr

/-- `calculate_sortino_ratio(risk_free_rate, target_return)`:
`excess = rets - target`, `downside = excess[excess < 0]`,
`downside_std = sqrt(mean(downside²)) * sqrt(252)`, and the result is
`(mean(rets) * 252 - risk_free_rate) / downside_std` when
`downside_std != 0`, else `np.inf`.

When `downside` is empty, `np.mean` of the empty slice is NaN, NaN
propagates through `sqrt` and `*`, and the guard `NaN != 0` is True in
Python, so the division branch runs and the call returns NaN — the
`np.inf` branch is unreachable (for a nonempty `downside` the mean of
positive squares is positive).  When `downside` is nonempty, the guard
`downside_std != 0` is equivalent over exact arithmetic to
`mean(downside²) ≠ 0`, and the finite value is recorded as
`val (mean(rets) * 252 - risk_free_rate) (mean(downside²))`. -/
def calculate_sortino_ratio (rets : List ℚ) (risk_free_rate : ℚ)
    (target_return : ℚ) : SortinoValue :=
  let excess_returns := rets.map (fun r => r - target_return)
  let downside_returns := excess_returns.filter (fun x => x < 0)
  match seriesMean (downside_returns.map (fun x => x ^ 2)) with
  | none => .nan
  | some msq =>
      let expected_return : ℚ := (rets.sum / (rets.length : ℚ)) * 252
      if msq ≠ 0 then .val (expected_return - risk_free_rate) msq
      else .inf

/-- Spec-side reading of "evenly spaced between `a` and `b` inclusive":
the first target is `a`, the last is `b`, and all consecutive gaps are
equal. -/
def EvenlySpacedIncl (targets : List ℚ) (a b : ℚ) : Prop :=
  targets.head? = some a ∧ targets.getLast? = some b ∧
  ∀ i j : ℕ, i + 1 < targets.length → j + 1 < targets.length →
    targets.getD (i + 1) 0 - targets.getD i 0
      = targets.getD (j + 1) 0 - targets.getD j 0

/-- The claim's property of one `efficient_frontier` call: exactly `n`
points, targets evenly spaced from `min(μ)` to `max(μ)` inclusive and
non-decreasing, and each recorded volatility equal to `sqrt(wᵀΣw)` at
that point's recorded weights. -/
def FrontierClaim (s : OptState) (solver_x : ℚ → List ℚ) (n : ℕ) : Prop :=
  ∃ a b pts, npMin s.mean_returns = some a ∧ npMax s.mean_returns = some b ∧
    efficient_frontier s solver_x n = .ok pts ∧ pts.length = n ∧
    EvenlySpacedIncl (pts.map FrontierPoint.ret) a b ∧
    List.Sorted (· ≤ ·) (pts.map FrontierPoint.ret) ∧
    ∀ p ∈ pts, p.volatility = Real.sqrt (quadForm s.cov_matrix p.weights)

/-! ## Helper lemmas -/

/-- `risk_metrics.py` never binds the name `norm`. -/
theorem norm_not_imported : riskMetricsTopLevelNames.contains "norm" = false := by
  decide


theorem foldl_min_le {y : ℚ} : ∀ (xs : List ℚ) (x : ℚ), y ∈ x :: xs → xs.foldl min x ≤ y
  | [], x, hy => by
    simp only [List.mem_singleton] at hy
    simp [hy]
  | z :: zs, x, hy => by
    rcases List.mem_cons.mp hy with h | h
    · rw [h]
      exact le_trans (foldl_min_le zs (min x z) (List.mem_cons_self _ _)) (min_le_left _ _)
    · rcases List.mem_cons.mp h with h' | h'
      · rw [h']
        exact le_trans (foldl_min_le zs (min x z) (List.mem_cons_self _ _)) (min_le_right _ _)
      · exact foldl_min_le zs (min x z) (List.mem_cons_of_mem _ h')

theorem foldl_min_mem : ∀ (xs : List ℚ) (x : ℚ), xs.foldl min x ∈ x :: xs
  | [], x => List.mem_singleton.mpr rfl
  | z :: zs, x => by
    have h := foldl_min_mem zs (min x z)
    rcases List.mem_cons.mp h with h' | h'
    · rcases le_total x z with hxz | hxz
      · exact List.mem_cons.mpr (Or.inl (by rw [List.foldl_cons, h', min_eq_left hxz]))
      · refine List.mem_cons.mpr (Or.inr (List.mem_cons.mpr (Or.inl ?_)))
        rw [List.foldl_cons, h', min_eq_right hxz]
    · exact List.mem_cons.mpr (Or.inr (List.mem_cons.mpr (Or.inr h')))

theorem foldl_max_le {y : ℚ} : ∀ (xs : List ℚ) (x : ℚ), y ∈ x :: xs → y ≤ xs.foldl max x
  | [], x, hy => by
    simp only [List.mem_singleton] at hy
    simp [hy]
  | z :: zs, x, hy => by
    rcases List.mem_cons.mp hy with h | h
    · rw [h]
      exact le_trans (le_max_left _ _) (foldl_max_le zs (max x z) (List.mem_cons_self _ _))
    · rcases List.mem_cons.mp h with h' | h'
      · rw [h']
        exact le_trans (le_max_right _ _) (foldl_max_le zs (max x z) (List.mem_cons_self _ _))
      · exact foldl_max_le zs (max x z) (List.mem_cons_of_mem _ h')

theorem foldl_max_mem : ∀ (xs : List ℚ) (x : ℚ), xs.foldl max x ∈ x :: xs
  | [], x => List.mem_singleton.mpr rfl
  | z :: zs, x => by
    have h := foldl_max_mem zs (max x z)
    rcases List.mem_cons.mp h with h' | h'
    · rcases le_total x z with hxz | hxz
      · refine List.mem_cons.mpr (Or.inr (List.mem_cons.mpr (Or.inl ?_)))
        rw [List.foldl_cons, h', max_eq_right hxz]
      · exact List.mem_cons.mpr (Or.inl (by rw [List.foldl_cons, h', max_eq_left hxz]))
    · exact List.mem_cons.mpr (Or.inr (List.mem_cons.mpr (Or.inr h')))

/-- `npMin` returns an element of the list that bounds it below. -/
theorem npMin_spec {xs : List ℚ} (hne : xs ≠ []) :
    ∃ m, npMin xs = some m ∧ m ∈ xs ∧ ∀ y ∈ xs, m ≤ y := by
  cases xs with
  | nil => exact absurd rfl hne
  | cons x rest =>
      exact ⟨rest.foldl min x, rfl, foldl_min_mem rest x,
        fun y hy => foldl_min_le rest x hy⟩

/-- `npMax` returns an element of the list that bounds it above. -/
theorem npMax_spec {xs : List ℚ} (hne : xs ≠ []) :
    ∃ m, npMax xs = some m ∧ m ∈ xs ∧ ∀ y ∈ xs, y ≤ m := by
  cases xs with
  | nil => exact absurd rfl hne
  | cons x rest =>
      exact ⟨rest.foldl max x, rfl, foldl_max_mem rest x,
        fun y hy => foldl_max_le rest x hy⟩

theorem sortQ_sorted (xs : List ℚ) : List.Sorted (· ≤ ·) (sortQ xs) :=
  List.sorted_insertionSort _ xs

theorem sortQ_perm (xs : List ℚ) : (sortQ xs).Perm xs :=
  List.perm_insertionSort _ xs

theorem sortQ_length (xs : List ℚ) : (sortQ xs).length = xs.length :=
  (sortQ_perm xs).length_eq

theorem sortQ_ne_nil {xs : List ℚ} (hne : xs ≠ []) : sortQ xs ≠ [] := by
  intro h
  exact hne (List.length_eq_zero.mp (by rw [← sortQ_length xs, h, List.length_nil]))

/-- A sorted list's entry at a lower index is `≤` its entry at a higher
index. -/
theorem sorted_getD_le_getD {s : List ℚ} (hs : List.Sorted (· ≤ ·) s)
    {i j : ℕ} (hij : i ≤ j) (hj : j < s.length) : s.getD i 0 ≤ s.getD j 0 := by
  rw [List.getD_eq_get _ _ (lt_of_le_of_lt hij hj), List.getD_eq_get _ _ hj]
  exact List.Sorted.rel_get_of_le hs hij

/-- The first entry of the ascending sort bounds every element of the
original list below. -/
theorem sortQ_head_le {xs : List ℚ} {y : ℚ} (hy : y ∈ xs) :
    (sortQ xs).getD 0 0 ≤ y := by
  have hmem : y ∈ sortQ xs := (sortQ_perm xs).mem_iff.mpr hy
  obtain ⟨k, hk⟩ := List.get_of_mem hmem
  rw [← hk, ← List.getD_eq_get (sortQ xs) 0 k.isLt]
  exact sorted_getD_le_getD (sortQ_sorted xs) (Nat.zero_le _) k.isLt

theorem sortQ_head_mem {xs : List ℚ} (hne : xs ≠ []) : (sortQ xs).getD 0 0 ∈ xs := by
  have hlen : 0 < (sortQ xs).length := by
    rw [sortQ_length]
    exact List.length_pos.mpr hne
  rw [List.getD_eq_get _ _ hlen]
  exact (sortQ_perm xs).mem_iff.mp (List.get_mem _ _ _)

/-- The last entry of the ascending sort bounds every element of the
original list above. -/
theorem sortQ_getLast_ge {xs : List ℚ} (hne : xs ≠ []) {y : ℚ} (hy : y ∈ xs) :
    y ≤ (sortQ xs).getD ((sortQ xs).length - 1) 0 := by
  have hmem : y ∈ sortQ xs := (sortQ_perm xs).mem_iff.mpr hy
  obtain ⟨k, hk⟩ := List.get_of_mem hmem
  have hlast : (sortQ xs).length - 1 < (sortQ xs).length :=
    Nat.sub_lt (List.length_pos.mpr (sortQ_ne_nil hne)) Nat.one_pos
  rw [← hk, ← List.getD_eq_get (sortQ xs) 0 k.isLt]
  exact sorted_getD_le_getD (sortQ_sorted xs) (Nat.le_sub_one_of_lt k.isLt) hlast

theorem sortQ_getLast_mem {xs : List ℚ} (hne : xs ≠ []) :
    (sortQ xs).getD ((sortQ xs).length - 1) 0 ∈ xs := by
  have hlast : (sortQ xs).length - 1 < (sortQ xs).length :=
    Nat.sub_lt (List.length_pos.mpr (sortQ_ne_nil hne)) Nat.one_pos
  rw [List.getD_eq_get _ _ hlast]
  exact (sortQ_perm xs).mem_iff.mp (List.get_mem _ _ _)

/-- `npMin` is the first entry of the ascending sort. -/
theorem npMin_eq_sortQ_head {xs : List ℚ} (hne : xs ≠ []) :
    npMin xs = some ((sortQ xs).getD 0 0) := by
  obtain ⟨m, hm, hmem, hle⟩ := npMin_spec hne
  rw [hm]
  exact congrArg some (le_antisymm (hle _ (sortQ_head_mem hne)) (sortQ_head_le hmem))

/-- `npMax` is the last entry of the ascending sort. -/
theorem npMax_eq_sortQ_getLast {xs : List ℚ} (hne : xs ≠ []) :
    npMax xs = some ((sortQ xs).getD ((sortQ xs).length - 1) 0) := by
  obtain ⟨m, hm, hmem, hle⟩ := npMax_spec hne
  rw [hm]
  exact congrArg some (le_antisymm (sortQ_getLast_ge hne hmem) (hle _ (sortQ_getLast_mem hne)))

/-- The linear-interpolation percentile of a sorted nonempty sample
never falls below the sample's first (smallest) entry. -/
theorem percentileSorted_ge_head {s : List ℚ} (hs : List.Sorted (· ≤ ·) s)
    (hne : s ≠ []) {q : ℚ} (h0 : 0 ≤ q) (h1 : q ≤ 100) :
    s.getD 0 0 ≤ percentileSorted s q := by
  have hn : 0 < s.length := List.length_pos.mpr hne
  have hn1 : (1 : ℚ) ≤ (s.length : ℚ) := by exact_mod_cast hn
  simp only [percentileSorted]
  set pos : ℚ := q / 100 * ((s.length : ℚ) - 1) with hpos_def
  have hpos0 : 0 ≤ pos := by
    apply mul_nonneg (by positivity)
    linarith
  have hposle : pos ≤ (s.length : ℚ) - 1 := by
    have hq1 : q / 100 ≤ 1 := by
      rw [div_le_one (by norm_num : (0:ℚ) < 100)]
      exact h1
    calc pos ≤ 1 * ((s.length : ℚ) - 1) := by
          apply mul_le_mul_of_nonneg_right hq1
          linarith
      _ = (s.length : ℚ) - 1 := one_mul _
  have hfloor0 : 0 ≤ ⌊pos⌋ := Int.floor_nonneg.mpr hpos0
  have hic : ((⌊pos⌋.toNat : ℕ) : ℚ) = ((⌊pos⌋ : ℤ) : ℚ) := by
    exact_mod_cast congrArg (fun z : ℤ => (z : ℚ)) (Int.toNat_of_nonneg hfloor0)
  have hile : ((⌊pos⌋.toNat : ℕ) : ℚ) ≤ pos := by
    rw [hic]
    exact Int.floor_le pos
  have hilt : ⌊pos⌋.toNat < s.length := by
    have : ((⌊pos⌋.toNat : ℕ) : ℚ) < (s.length : ℚ) := lt_of_le_of_lt hile
      (lt_of_le_of_lt hposle (by linarith))
    exact_mod_cast this
  have hg0 : 0 ≤ pos - ((⌊pos⌋.toNat : ℕ) : ℚ) := by linarith
  have hhead : s.getD 0 0 ≤ s.getD ⌊pos⌋.toNat 0 :=
    sorted_getD_le_getD hs (Nat.zero_le _) hilt
  have hhi : s.getD ⌊pos⌋.toNat 0 ≤ s.getD (⌊pos⌋.toNat + 1) (s.getD ⌊pos⌋.toNat 0) := by
    by_cases hlt : ⌊pos⌋.toNat + 1 < s.length
    · rw [List.getD_eq_get _ _ hlt, List.getD_eq_get _ _ hilt]
      exact List.Sorted.rel_get_of_le hs (by exact_mod_cast Nat.le_succ _)
    · rw [List.getD_eq_default _ _ (Nat.le_of_not_lt hlt)]
  nlinarith [mul_nonneg hg0 (sub_nonneg.mpr hhi)]

/-- At percentage 0 the percentile is the first (smallest) entry. -/
theorem percentileSorted_zero (s : List ℚ) : percentileSorted s 0 = s.getD 0 0 := by
  simp [percentileSorted]

/-- At percentage 100 the percentile is the last (largest) entry. -/
theorem percentileSorted_hundred {s : List ℚ} (hne : s ≠ []) :
    percentileSorted s 100 = s.getD (s.length - 1) 0 := by
  have hn : 0 < s.length := List.length_pos.mpr hne
  simp only [percentileSorted]
  have hpos : (100 : ℚ) / 100 * ((s.length : ℚ) - 1) = ((s.length - 1 : ℕ) : ℚ) := by
    rw [Nat.cast_sub hn]
    norm_num
  rw [hpos, Int.floor_natCast, Int.toNat_natCast]
  ring

/-- A nonempty list whose entries all lie below `b` has mean below `b`. -/
theorem list_mean_le {xs : List ℚ} (hne : xs ≠ []) {b : ℚ} (h : ∀ x ∈ xs, x ≤ b) :
    xs.sum / (xs.length : ℚ) ≤ b := by
  have hlen : 0 < (xs.length : ℚ) := by exact_mod_cast List.length_pos.mpr hne
  rw [div_le_iff hlen]
  have hsum : xs.sum ≤ xs.length • b := List.sum_le_card_nsmul xs b h
  calc xs.sum ≤ xs.length • b := hsum
    _ = b * (xs.length : ℚ) := by rw [nsmul_eq_mul, mul_comm]

theorem cumprodFrom_length : ∀ (rets : List ℚ) (acc : ℚ),
    (cumprodFrom rets acc).length = rets.length
  | [], _ => rfl
  | _ :: rs, acc => by
    simp only [cumprodFrom, List.length_cons, cumprodFrom_length rs]

theorem cumprodFrom_pos : ∀ (rets : List ℚ) (acc : ℚ), 0 < acc →
    (∀ r ∈ rets, -1 < r) → ∀ c ∈ cumprodFrom rets acc, 0 < c
  | [], _, _, _, c, hc => absurd hc (List.not_mem_nil c)
  | r :: rs, acc, hacc, hr, c, hc => by
    have hstep : 0 < acc * (1 + r) := by
      have : -1 < r := hr r (List.mem_cons_self _ _)
      nlinarith
    rcases List.mem_cons.mp hc with h | h
    · rw [h]; exact hstep
    · exact cumprodFrom_pos rs (acc * (1 + r)) hstep
        (fun x hx => hr x (List.mem_cons_of_mem _ hx)) c h

theorem cumulative_returns_ne_nil {rets : List ℚ} (hne : rets ≠ []) :
    cumulative_returns rets ≠ [] := by
  intro h
  apply hne
  have hlen := cumprodFrom_length rets 1
  rw [cumulative_returns] at h
  rw [h] at hlen
  exact List.length_eq_zero.mp hlen.symm

/-- Core drawdown facts, by induction over the running maximum: with a
positive seed `m` and positive entries, every drawdown
`xᵢ / max(m, x₁..xᵢ) - 1` is `≤ 0`, and they are all `0` exactly when
the entries climb from `m` without ever falling (`Chain (· ≤ ·) m xs`). -/
theorem drawdown_aux : ∀ (xs : List ℚ) (m : ℚ), 0 < m → (∀ x ∈ xs, 0 < x) →
    (∀ dd ∈ (xs.zip (rollingMaxFrom xs m)).map (fun p => p.1 / p.2 - 1), dd ≤ 0) ∧
    ((∀ dd ∈ (xs.zip (rollingMaxFrom xs m)).map (fun p => p.1 / p.2 - 1), dd = 0) ↔
      List.Chain (· ≤ ·) m xs)
  | [], m, _, _ => by
    constructor
    · intro dd hdd; simp at hdd
    · simp
  | x :: xs, m, hm, hx => by
    have hmx : 0 < max m x := lt_of_lt_of_le hm (le_max_left m x)
    have hfirst_le : x / max m x - 1 ≤ 0 := by
      have : x / max m x ≤ 1 := (div_le_one hmx).mpr (le_max_right m x)
      linarith
    have hfirst_eq : x / max m x - 1 = 0 ↔ m ≤ x := by
      rw [sub_eq_zero, div_eq_one_iff_eq (ne_of_gt hmx)]
      constructor
      · intro h; exact max_eq_right_iff.mp h.symm
      · intro h; exact (max_eq_right_iff.mpr h).symm
    have ihx : ∀ y ∈ xs, 0 < y := fun y hy => hx y (List.mem_cons_of_mem _ hy)
    obtain ⟨ih1, ih2⟩ := drawdown_aux xs (max m x) hmx ihx
    have hzip : ((x :: xs).zip (rollingMaxFrom (x :: xs) m)).map
          (fun p => p.1 / p.2 - 1)
        = (x / max m x - 1) ::
          (xs.zip (rollingMaxFrom xs (max m x))).map (fun p => p.1 / p.2 - 1) := by
      simp [rollingMaxFrom]
    rw [hzip]
    constructor
    · intro dd hdd
      rcases List.mem_cons.mp hdd with h | h
      · rw [h]; exact hfirst_le
      · exact ih1 dd h
    · constructor
      · intro hall
        have h0 : m ≤ x := hfirst_eq.mp (hall _ (List.mem_cons_self _ _))
        have hrest := ih2.mp (fun dd hdd => hall dd (List.mem_cons_of_mem _ hdd))
        rw [max_eq_right h0] at hrest
        exact List.Chain.cons h0 hrest
      · intro hch
        rcases List.chain_cons.mp hch with ⟨h0, hch'⟩
        intro dd hdd
        rcases List.mem_cons.mp hdd with h | h
        · rw [h]; exact hfirst_eq.mpr h0
        · refine ih2.mpr ?_ dd h
          rw [max_eq_right h0]
          exact hch'

theorem seriesMin_spec {xs : List ℚ} (hne : xs ≠ []) :
    ∃ d, seriesMin xs = some d ∧ d ∈ xs ∧ ∀ y ∈ xs, d ≤ y := by
  cases xs with
  | nil => exact absurd rfl hne
  | cons x rest =>
      exact ⟨rest.foldl min x, rfl, foldl_min_mem rest x,
        fun y hy => foldl_min_le rest x hy⟩

/-- With an in-range percentage and a nonempty series, historical VaR is
the negated interpolated percentile of the sorted series. -/
theorem calculate_var_historical_ok {rets : List ℚ} (hne : rets ≠ []) {c : ℚ}
    (h0 : 0 ≤ (1 - c) * 100) (h1 : (1 - c) * 100 ≤ 100) :
    calculate_var rets c "historical"
      = .ok (-(percentileSorted (sortQ rets) ((1 - c) * 100))) := by
  simp only [calculate_var, npPercentile]
  rw [if_pos trivial, if_neg (by push_neg; exact ⟨by linarith, by linarith⟩),
    if_neg (by simp [hne])]
  rfl

/-- The tail `{r ∈ rets | r ≤ percentile}` is never empty: the linear
interpolation keeps the percentile at or above the smallest sample. -/
theorem historical_tail_ne_nil {rets : List ℚ} (hne : rets ≠ []) {q : ℚ}
    (h0 : 0 ≤ q) (h1 : q ≤ 100) :
    rets.filter (fun r => r ≤ percentileSorted (sortQ rets) q) ≠ [] := by
  intro hnil
  have hhead_mem : (sortQ rets).getD 0 0 ∈ rets := sortQ_head_mem hne
  have hhead_le : (sortQ rets).getD 0 0 ≤ percentileSorted (sortQ rets) q :=
    percentileSorted_ge_head (sortQ_sorted rets) (sortQ_ne_nil hne) h0 h1
  have hmem : (sortQ rets).getD 0 0
      ∈ rets.filter (fun r => r ≤ percentileSorted (sortQ rets) q) :=
    List.mem_filter.mpr ⟨hhead_mem, by simpa using hhead_le⟩
  rw [hnil] at hmem
  exact List.not_mem_nil _ hmem

/-- Expected shortfall evaluates to the negated mean of the (nonempty)
tail at or below the percentile. -/
theorem expected_shortfall_eval {rets : List ℚ} (hne : rets ≠ []) {c : ℚ}
    (h0 : 0 ≤ (1 - c) * 100) (h1 : (1 - c) * 100 ≤ 100) :
    calculate_expected_shortfall rets c
      = .ok (some (-((rets.filter
            (fun r => r ≤ percentileSorted (sortQ rets) ((1 - c) * 100))).sum
          / ((rets.filter
            (fun r => r ≤ percentileSorted (sortQ rets) ((1 - c) * 100))).length : ℚ)))) := by
  rw [calculate_expected_shortfall, calculate_var_historical_ok hne h0 h1]
  have hfne := historical_tail_ne_nil hne h0 h1
  simp only [Except.map, neg_neg, seriesMean]
  rw [if_neg (by simpa using hfne)]
  rfl

theorem head?_eq_getD {l : List ℚ} (hne : l ≠ []) : l.head? = some (l.getD 0 0) := by
  cases l with
  | nil => exact absurd rfl hne
  | cons x xs => rfl

theorem getLast?_eq_getD {l : List ℚ} (hne : l ≠ []) :
    l.getLast? = some (l.getD (l.length - 1) 0) := by
  rw [List.getLast?_eq_getLast_of_ne_nil hne]
  congr 1
  rw [List.getLast_eq_get]
  rw [List.getD_eq_get _ _ (Nat.sub_lt (List.length_pos.mpr hne) Nat.one_pos)]

theorem linspace_length (a b : ℚ) (n : ℕ) : (linspace a b n).length = n := by
  unfold linspace
  split
  · simp [*]
  · rw [List.length_map, List.length_range]

theorem linspace_ne_nil (a b : ℚ) {n : ℕ} (hn : 0 < n) : linspace a b n ≠ [] := by
  intro h
  have hl := linspace_length a b n
  rw [h] at hl
  simp at hl
  omega

theorem linspace_getD {a b : ℚ} {n i : ℕ} (hn : 2 ≤ n) (hi : i < n) :
    (linspace a b n).getD i 0 = a + (i : ℚ) * ((b - a) / ((n : ℚ) - 1)) := by
  unfold linspace
  rw [if_neg (by omega)]
  rw [List.getD_eq_get _ _ (by rw [List.length_map, List.length_range]; exact hi)]
  rw [List.get_map, List.get_range]

theorem linspace_get {a b : ℚ} {n : ℕ} (hn : 2 ≤ n)
    (i : Fin (linspace a b n).length) :
    (linspace a b n).get i = a + ((i : ℕ) : ℚ) * ((b - a) / ((n : ℚ) - 1)) := by
  have hi : (i : ℕ) < n := lt_of_lt_of_eq i.isLt (linspace_length a b n)
  rw [← linspace_getD hn hi, List.getD_eq_get _ _ i.isLt]

/-! ## Claim theorems -/

/-- **C1** (code bug.)  On a return series with at least two periods and
no negative-excess period, `calculate_sortino_ratio` does not return the
documented `+∞` sentinel: the slice `excess_returns[excess_returns < 0]`
is empty, `np.mean` over it is NaN, NaN propagates through `sqrt` and
`*`, and the Python guard `downside_std != 0` is True for NaN, so the
division branch runs and the call returns NaN.  Concretely, at portfolio
returns `[1%, 2%]` with target 0 and risk-free rate 2% the result is
NaN, which is not the `+∞` sentinel. -/
theorem C1_sortino_no_downside_returns_nan :
    calculate_sortino_ratio [1/100, 2/100] (2/100) 0 = SortinoValue.nan ∧
    SortinoValue.nan ≠ SortinoValue.inf := by
  constructor
  · norm_num [calculate_sortino_ratio, seriesMean]
  · decide

/-- **C3** (code bug.)  `calculate_var(c, 'parametric')` does not return
`-(mean - z·std)`: line 45 of `risk_metrics.py` references `norm`, which
the module never imports (lines 1–3 bind only `np`, `pd`, `Dict`,
`Optional`), so the call raises NameError before any arithmetic.
Concretely at portfolio returns `[1%, -2%]` and confidence level 0.95. -/
theorem C3_parametric_var_name_error :
    calculate_var [1/100, -1/50] (95/100) "parametric"
      = .error (.nameError "name 'norm' is not defined") := rfl

/-- **C6** (confirmed.)  For every method string other than
`'historical'` and `'parametric'`, `calculate_var` raises a ValueError
whose message names the unsupported method. -/
theorem C6_unsupported_method_error (rets : List ℚ) (confidence_level : ℚ)
    (method : String) (h1 : method ≠ "historical") (h2 : method ≠ "parametric") :
    calculate_var rets confidence_level method
      = .error (.valueError ("Unsupported VaR method: " ++ method)) := by
  rw [calculate_var, if_neg h1, if_neg h2]

/-- Witness for C6 at the concrete method `'monte_carlo'`, which the
docstring lists as supported but the dispatch rejects. -/
theorem C6_unsupported_method_error_witness :
    calculate_var [1/100, -1/50] (95/100) "monte_carlo"
      = .error (.valueError ("Unsupported VaR method: " ++ "monte_carlo")) :=
  C6_unsupported_method_error [1/100, -1/50] (95/100) "monte_carlo"
    (by decide) (by decide)

/-- **C7** (confirmed.)  For every nonempty return series whose
per-period returns all exceed −1, `calculate_max_drawdown` returns the
minimum over `t` of `Cₜ/Mₜ − 1` (the returned value is a member of the
drawdown series bounding it below); the result is `≤ 0`, and it is `0`
exactly when the cumulative wealth curve is non-decreasing
throughout. -/
theorem C7_max_drawdown_spec (rets : List ℚ) (hne : rets ≠ [])
    (hr : ∀ r ∈ rets, -1 < r) :
    ∃ d, calculate_max_drawdown rets = some d ∧
      d ∈ drawdowns rets ∧ (∀ x ∈ drawdowns rets, d ≤ x) ∧ d ≤ 0 ∧
      (d = 0 ↔ List.Sorted (· ≤ ·) (cumulative_returns rets)) := by
  have hCpos : ∀ c ∈ cumulative_returns rets, 0 < c := fun c hc =>
    cumprodFrom_pos rets 1 one_pos hr c hc
  have hCne := cumulative_returns_ne_nil hne
  obtain ⟨c0, cs, hC⟩ := List.exists_cons_of_ne_nil hCne
  have hc0 : 0 < c0 := hCpos c0 (by rw [hC]; exact List.mem_cons_self _ _)
  have hcs : ∀ x ∈ cs, 0 < x := fun x hx =>
    hCpos x (by rw [hC]; exact List.mem_cons_of_mem _ hx)
  have hD : drawdowns rets
      = 0 :: (cs.zip (rollingMaxFrom cs c0)).map (fun p => p.1 / p.2 - 1) := by
    rw [drawdowns, hC]
    simp [rolling_max, div_self (ne_of_gt hc0)]
  obtain ⟨haux1, haux2⟩ := drawdown_aux cs c0 hc0 hcs
  have hDne : drawdowns rets ≠ [] := by rw [hD]; exact List.cons_ne_nil _ _
  obtain ⟨d, hdm, hdmem, hdle⟩ := seriesMin_spec hDne
  refine ⟨d, ?_, hdmem, hdle, ?_, ?_⟩
  · rw [calculate_max_drawdown]; exact hdm
  · exact hdle 0 (by rw [hD]; exact List.mem_cons_self _ _)
  · constructor
    · intro hd0
      have hall : ∀ x ∈ drawdowns rets, x = 0 := by
        intro x hx
        have hxle : x ≤ 0 := by
          rw [hD] at hx
          rcases List.mem_cons.mp hx with h | h
          · exact le_of_eq h
          · exact haux1 x h
        have hxge : 0 ≤ x := hd0 ▸ hdle x hx
        exact le_antisymm hxle hxge
      have hchain : List.Chain (· ≤ ·) c0 cs := by
        apply haux2.mp
        intro dd hdd
        exact hall dd (by rw [hD]; exact List.mem_cons_of_mem _ hdd)
      rw [hC]
      exact List.chain_iff_pairwise.mp hchain
    · intro hsorted
      have hchain : List.Chain (· ≤ ·) c0 cs := by
        apply List.chain_iff_pairwise.mpr
        rw [hC] at hsorted
        exact hsorted
      have hall0 := haux2.mpr hchain
      rw [hD] at hdmem
      rcases List.mem_cons.mp hdmem with h | h
      · exact h
      · exact hall0 d h

/-- Witness for C7 at the concrete series `[10%, −50%, 10%]`. -/
theorem C7_max_drawdown_spec_witness :
    ((([1/10, -1/2, 1/10] : List ℚ) ≠ []) ∧ (∀ r ∈ ([1/10, -1/2, 1/10] : List ℚ), -1 < r)) ∧
    (∃ d, calculate_max_drawdown [1/10, -1/2, 1/10] = some d ∧
      d ∈ drawdowns [1/10, -1/2, 1/10] ∧
      (∀ x ∈ drawdowns [1/10, -1/2, 1/10], d ≤ x) ∧ d ≤ 0 ∧
      (d = 0 ↔ List.Sorted (· ≤ ·) (cumulative_returns [1/10, -1/2, 1/10]))) := by
  refine ⟨⟨by simp, ?_⟩, C7_max_drawdown_spec [1/10, -1/2, 1/10] (by simp) ?_⟩ <;>
    · intro r hr
      rcases List.mem_cons.mp hr with h | h
      · rw [h]; norm_num
      · rcases List.mem_cons.mp h with h' | h'
        · rw [h']; norm_num
        · rcases List.mem_cons.mp h' with h'' | h''
          · rw [h'']; norm_num
          · exact absurd h'' (List.not_mem_nil r)

/-- **C2** (confirmed.)  For every nonempty portfolio-return series and
confidence level in `(0, 1)`, `calculate_expected_shortfall` returns the
negated mean of the portfolio returns at or below `-VaR` (historical).
The tail is never empty — the linearly interpolated percentile never
falls below the smallest sample, so the smallest return always belongs
to it — hence the claim's empty-tail boundary clause holds vacuously
and the mean is well defined (never the NaN of an empty mean). -/
theorem C2_expected_shortfall_tail_mean (rets : List ℚ) (c : ℚ) (hne : rets ≠ [])
    (hc0 : 0 < c) (hc1 : c < 1) :
    ∃ var, calculate_var rets c "historical" = .ok var ∧
      rets.filter (fun r => r ≤ -var) ≠ [] ∧
      calculate_expected_shortfall rets c
        = .ok (some (-((rets.filter (fun r => r ≤ -var)).sum
            / ((rets.filter (fun r => r ≤ -var)).length : ℚ)))) := by
  have h0 : 0 ≤ (1 - c) * 100 := by nlinarith
  have h1 : (1 - c) * 100 ≤ 100 := by nlinarith
  refine ⟨-(percentileSorted (sortQ rets) ((1 - c) * 100)),
    calculate_var_historical_ok hne h0 h1, ?_, ?_⟩
  · simpa only [neg_neg] using historical_tail_ne_nil hne h0 h1
  · simpa only [neg_neg] using expected_shortfall_eval hne h0 h1

/-- Witness for C2 at the concrete series `[1%, −2%]` and confidence
level 0.95. -/
theorem C2_expected_shortfall_tail_mean_witness :
    ((([1/100, -1/50] : List ℚ) ≠ []) ∧ (0 : ℚ) < 95/100 ∧ (95/100 : ℚ) < 1) ∧
    (∃ var, calculate_var [1/100, -1/50] (95/100) "historical" = .ok var ∧
      List.filter (fun r => r ≤ -var) [1/100, -1/50] ≠ [] ∧
      calculate_expected_shortfall [1/100, -1/50] (95/100)
        = .ok (some (-((List.filter (fun r => r ≤ -var) [1/100, -1/50]).sum
            / ((List.filter (fun r => r ≤ -var) [1/100, -1/50]).length : ℚ))))) :=
  ⟨⟨by simp, by norm_num, by norm_num⟩,
    C2_expected_shortfall_tail_mean [1/100, -1/50] (95/100) (by simp)
      (by norm_num) (by norm_num)⟩

/-- **C5** (corrected.)  `calculate_var` performs no confidence-level
validation of its own.  For the historical method, a confidence level
below 0 or above 1 sends a percentage outside `[0, 100]` into
`np.percentile`, which rejects it with a ValueError; but the boundary
values 1 and 0 — both outside the open interval `(0, 1)` — are accepted
and return the negated minimum (respectively maximum) portfolio
return. -/
theorem C5_confidence_level_unvalidated (rets : List ℚ) (c : ℚ) (hne : rets ≠ []) :
    ((c < 0 ∨ 1 < c) → calculate_var rets c "historical"
        = .error (.valueError "Percentiles must be in the range [0, 100]")) ∧
    (∃ m, npMin rets = some m ∧ calculate_var rets 1 "historical" = .ok (-m)) ∧
    (∃ m, npMax rets = some m ∧ calculate_var rets 0 "historical" = .ok (-m)) := by
  refine ⟨?_, ?_, ?_⟩
  · intro hc
    simp only [calculate_var, npPercentile]
    rw [if_pos trivial, if_pos ?_]
    · rfl
    · rcases hc with h | h
      · right; nlinarith
      · left; nlinarith
  · refine ⟨(sortQ rets).getD 0 0, npMin_eq_sortQ_head hne, ?_⟩
    have h := calculate_var_historical_ok hne (c := 1) (by norm_num) (by norm_num)
    rw [show ((1:ℚ) - 1) * 100 = 0 by norm_num, percentileSorted_zero] at h
    exact h
  · refine ⟨(sortQ rets).getD ((sortQ rets).length - 1) 0,
      npMax_eq_sortQ_getLast hne, ?_⟩
    have h := calculate_var_historical_ok hne (c := 0) (by norm_num) (by norm_num)
    rw [show ((1:ℚ) - 0) * 100 = 100 by norm_num,
      percentileSorted_hundred (sortQ_ne_nil hne)] at h
    exact h

/-- Witness for C5 at the concrete series `[1%, −2%]`, exercising the
out-of-range branch at confidence level 2 and both boundary values. -/
theorem C5_confidence_level_unvalidated_witness :
    (([1/100, -1/50] : List ℚ) ≠ []) ∧
    ((((2:ℚ) < 0 ∨ 1 < (2:ℚ)) → calculate_var [1/100, -1/50] 2 "historical"
        = .error (.valueError "Percentiles must be in the range [0, 100]")) ∧
     (∃ m, npMin [1/100, -1/50] = some m ∧
        calculate_var [1/100, -1/50] 1 "historical" = .ok (-m)) ∧
     (∃ m, npMax [1/100, -1/50] = some m ∧
        calculate_var [1/100, -1/50] 0 "historical" = .ok (-m))) :=
  ⟨by simp, C5_confidence_level_unvalidated [1/100, -1/50] 2 (by simp)⟩

/-- Counterexample to C5 as stated: confidence level 1 lies outside the
open interval `(0, 1)`, yet the historical method does not fail — it
returns the negated minimum return (here `.ok (1/50)` on `[1%, −2%]`),
so not every out-of-range confidence level fails fast. -/
theorem C5_counterexample_boundary_accepted :
    calculate_var [1/100, -1/50] 1 "historical" = .ok (1/50) ∧
    ¬ ∃ e, calculate_var [1/100, -1/50] 1 "historical" = .error e := by
  have h : calculate_var [1/100, -1/50] 1 "historical" = .ok (1/50) := by
    norm_num [calculate_var, npPercentile, percentileSorted, sortQ,
      List.insertionSort, List.orderedInsert, Except.map]
  refine ⟨h, ?_⟩
  rintro ⟨e, he⟩
  rw [h] at he
  exact Except.noConfusion he

/-- **C10** (confirmed.)  Whenever some portfolio return lies at or
below `-VaR` (historical, confidence in `(0, 1)`), expected shortfall
dominates VaR: the averaged tail values are each `≤ -VaR`, so their
negated mean is `≥ VaR`. -/
theorem C10_es_dominates_var (rets : List ℚ) (c : ℚ) (hne : rets ≠ [])
    (hc0 : 0 < c) (hc1 : c < 1) (var : ℚ)
    (hvar : calculate_var rets c "historical" = .ok var)
    (htail : ∃ r ∈ rets, r ≤ -var) :
    ∃ es, calculate_expected_shortfall rets c = .ok (some es) ∧ var ≤ es := by
  have h0 : 0 ≤ (1 - c) * 100 := by nlinarith
  have h1 : (1 - c) * 100 ≤ 100 := by nlinarith
  have hvar' := calculate_var_historical_ok hne h0 h1
  rw [hvar] at hvar'
  have hvar_eq : var = -(percentileSorted (sortQ rets) ((1 - c) * 100)) :=
    Except.ok.inj hvar'
  set p := percentileSorted (sortQ rets) ((1 - c) * 100) with hp
  have hfne := historical_tail_ne_nil hne h0 h1
  refine ⟨-((rets.filter (fun r => r ≤ p)).sum
      / ((rets.filter (fun r => r ≤ p)).length : ℚ)),
    expected_shortfall_eval hne h0 h1, ?_⟩
  have hmean : (rets.filter (fun r => r ≤ p)).sum
      / ((rets.filter (fun r => r ≤ p)).length : ℚ) ≤ p := by
    apply list_mean_le hfne
    intro x hx
    have := List.mem_filter.mp hx
    simpa using this.2
  rw [hvar_eq]
  linarith

/-- Witness for C10 at the concrete series `[1%, −2%]`, confidence
level 0.95, VaR `37/2000`, tail member `−2%`. -/
theorem C10_es_dominates_var_witness :
    ((([1/100, -1/50] : List ℚ) ≠ []) ∧ (0:ℚ) < 95/100 ∧ (95/100:ℚ) < 1 ∧
      calculate_var [1/100, -1/50] (95/100) "historical" = .ok (37/2000) ∧
      (∃ r ∈ ([1/100, -1/50] : List ℚ), r ≤ -(37/2000))) ∧
    (∃ es, calculate_expected_shortfall [1/100, -1/50] (95/100) = .ok (some es) ∧
      (37/2000 : ℚ) ≤ es) := by
  have hvar : calculate_var [1/100, -1/50] (95/100) "historical" = .ok (37/2000) := by
    norm_num [calculate_var, npPercentile, percentileSorted, sortQ,
      List.insertionSort, List.orderedInsert, Except.map]
  have hmem : ∃ r ∈ ([1/100, -1/50] : List ℚ), r ≤ -(37/2000) :=
    ⟨-1/50, by simp, by norm_num⟩
  exact ⟨⟨by simp, by norm_num, by norm_num, hvar, hmem⟩,
    C10_es_dominates_var [1/100, -1/50] (95/100) (by simp) (by norm_num)
      (by norm_num) (37/2000) hvar hmem⟩

/-- With a nonempty asset universe the Sharpe optimization proceeds
straight into the solver call and reports the recomputed ratio at the
solver's iterate — there is no validation before it. -/
theorem optimize_sharpe_ratio_ok (s : OptState) (rf : ℚ) (x : List ℚ)
    (h : s.returns.assets ≠ 0) :
    optimize_sharpe_ratio s rf x = .ok (x,
      ((npDot s.mean_returns x : ℚ) - (rf : ℚ)) /
        Real.sqrt (quadForm s.cov_matrix x)) := by
  simp only [optimize_sharpe_ratio]
  rw [if_neg h]

/-- **C4** (corrected.)  Neither the constructor nor
`optimize_sharpe_ratio` validates its input.  For any data frame with at
least one asset column and fewer than 2 periods — malformed per the
claim — construction succeeds and the optimization call proceeds into
the solver and returns a result, instead of failing fast with a
descriptive error. -/
theorem C4_no_validation_proceeds (d : ReturnsData) (risk_free_rate : ℚ)
    (result_x : List ℚ) (hassets : 1 ≤ d.assets) (hperiods : d.rows.length < 2) :
    ∃ s, PortfolioOptimizer.init d = .ok s ∧
      ∃ sharpe, optimize_sharpe_ratio s risk_free_rate result_x
        = .ok (result_x, sharpe) :=
  ⟨_, rfl, _, optimize_sharpe_ratio_ok _ _ _ (show d.assets ≠ 0 by omega)⟩

/-- Witness for C4 at a concrete one-period, two-asset frame. -/
theorem C4_no_validation_proceeds_witness :
    (1 ≤ (ReturnsData.mk 2 [[1/100, 2/100]]).assets ∧
      (ReturnsData.mk 2 [[1/100, 2/100]]).rows.length < 2) ∧
    (∃ s, PortfolioOptimizer.init (ReturnsData.mk 2 [[1/100, 2/100]]) = .ok s ∧
      ∃ sharpe, optimize_sharpe_ratio s (2/100) [1/2, 1/2]
        = .ok ([1/2, 1/2], sharpe)) :=
  ⟨⟨by norm_num, by norm_num⟩,
    C4_no_validation_proceeds (ReturnsData.mk 2 [[1/100, 2/100]]) (2/100)
      [1/2, 1/2] (by norm_num) (by norm_num)⟩

/-- Counterexample to C4 as stated: at the malformed input with 2 assets
but a single period, constructing the optimizer raises nothing (pandas
`mean`/`cov` simply produce NaN entries for the covariance), and the
optimization call also proceeds and returns a result — no descriptive
error is raised before optimization is attempted. -/
theorem C4_counterexample_no_fail_fast :
    (∃ s, PortfolioOptimizer.init (ReturnsData.mk 2 [[1/100, 2/100]]) = .ok s ∧
      ∃ out, optimize_sharpe_ratio s (2/100) [1/2, 1/2] = .ok out) ∧
    ¬ ∃ e, PortfolioOptimizer.init (ReturnsData.mk 2 [[1/100, 2/100]])
        = .error e := by
  constructor
  · exact ⟨_, rfl, _, optimize_sharpe_ratio_ok _ _ _ (by norm_num)⟩
  · rintro ⟨e, he⟩
    exact Except.noConfusion he

/-- `np.sum(a * b)` over equal-length vectors is the index-wise sum of
products `∑ i, aᵢ·bᵢ`. -/
theorem npDot_eq_sum : ∀ (a b : List ℚ), b.length = a.length →
    npDot a b = ∑ i in Finset.range a.length, a.getD i 0 * b.getD i 0
  | [], b, h => by
    rw [List.length_eq_zero.mp h]
    simp [npDot]
  | x :: as, b, h => by
    cases b with
    | nil => exact absurd h (by simp)
    | cons y bs =>
        have hlen : bs.length = as.length := by simpa using h
        have ih := npDot_eq_sum as bs hlen
        have hstep : npDot (x :: as) (y :: bs) = x * y + npDot as bs := by
          simp [npDot]
        rw [hstep, List.length_cons, Finset.sum_range_succ', ih]
        simp only [List.getD_cons_succ, List.getD_cons_zero]
        ring

/-- **C9** (confirmed.)  For a weight vector of matching length,
`calculate_metrics` returns expected return exactly `wᵀμ`, volatility
`sqrt(wᵀΣw)`, and a Sharpe ratio computed against the hard-coded 2%
risk-free rate — unchanged by whatever rate any optimization call used.
The function validates nothing about `w` (the witness instantiates it
with a negative weight not summing to 1) and is a pure function of the
state and `w`. -/
theorem C9_calculate_metrics_spec (s : OptState) (w : List ℚ)
    (hw : w.length = s.mean_returns.length) :
    (calculate_metrics s w).expected_return
        = ∑ i in Finset.range s.mean_returns.length,
            w.getD i 0 * s.mean_returns.getD i 0 ∧
    (calculate_metrics s w).volatility = Real.sqrt (quadForm s.cov_matrix w) ∧
    (calculate_metrics s w).sharpe_ratio
        = (((calculate_metrics s w).expected_return : ℚ) - 2/100)
            / (calculate_metrics s w).volatility ∧
    ∀ (risk_free_rate : ℚ) (result_x : List ℚ) (out : List ℚ × ℝ),
      optimize_sharpe_ratio s risk_free_rate result_x = .ok out →
      (calculate_metrics s w).sharpe_ratio
        = (((npDot s.mean_returns w : ℚ) : ℝ) - 2/100)
            / Real.sqrt (quadForm s.cov_matrix w) := by
  refine ⟨?_, rfl, ?_, ?_⟩
  · show npDot s.mean_returns w = _
    rw [npDot_eq_sum s.mean_returns w hw]
    exact Finset.sum_congr rfl (fun i _ => mul_comm _ _)
  · rfl
  · intro _ _ _ _
    rfl

/-- Witness for C9 with weights `[2, −3]` — negative entry, sum ≠ 1 —
against an explicit two-asset state. -/
theorem C9_calculate_metrics_spec_witness :
    (([2, -3] : List ℚ).length
        = (OptState.mk (ReturnsData.mk 2 [[1/100, 3/100], [2/100, 4/100]])
            [189/50, 441/50] [[63/5000, 63/5000], [63/5000, 63/5000]]).mean_returns.length) ∧
    ((calculate_metrics (OptState.mk (ReturnsData.mk 2 [[1/100, 3/100], [2/100, 4/100]])
            [189/50, 441/50] [[63/5000, 63/5000], [63/5000, 63/5000]]) [2, -3]).expected_return
        = ∑ i in Finset.range 2,
            ([2, -3] : List ℚ).getD i 0 * ([189/50, 441/50] : List ℚ).getD i 0) := by
  constructor
  · norm_num
  · have h := C9_calculate_metrics_spec
      (OptState.mk (ReturnsData.mk 2 [[1/100, 3/100], [2/100, 4/100]])
        [189/50, 441/50] [[63/5000, 63/5000], [63/5000, 63/5000]]) [2, -3] (by norm_num)
    exact h.1

/-- **C8** (corrected, amended to `num_points ≥ 2`.)  For a state with a
nonempty mean-return vector and any solver behaviour, the frontier sweep
returns exactly `n` points whose targets run evenly from `min(μ)` to
`max(μ)` inclusive in non-decreasing order, each recorded volatility
being `sqrt(wᵀΣw)` at the recorded weights.  (At `num_points = 1`,
`np.linspace` emits only the start point, so "max inclusive" fails —
see the counterexample.) -/
theorem C8_frontier_spec (s : OptState) (solver_x : ℚ → List ℚ) (n : ℕ)
    (hne : s.mean_returns ≠ []) (hn : 2 ≤ n) :
    FrontierClaim s solver_x n := by
  obtain ⟨a, ha, hamem, hale⟩ := npMin_spec hne
  obtain ⟨b, hb, hbmem, hbge⟩ := npMax_spec hne
  have hab : a ≤ b := hale b hbmem
  have hn2 : (2 : ℚ) ≤ (n : ℚ) := by exact_mod_cast hn
  have hg : 0 ≤ (b - a) / ((n : ℚ) - 1) := by
    apply div_nonneg (by linarith)
    linarith
  have hfr : efficient_frontier s solver_x n
      = .ok ((linspace a b n).map (fun t =>
          { ret := t
            volatility := Real.sqrt (quadForm s.cov_matrix (solver_x t))
            weights := solver_x t })) := by
    simp only [efficient_frontier, ha, hb]
  have hmap : ((linspace a b n).map (fun t =>
      ({ ret := t
         volatility := Real.sqrt (quadForm s.cov_matrix (solver_x t))
         weights := solver_x t } : FrontierPoint))).map FrontierPoint.ret
      = linspace a b n := by
    rw [List.map_map]
    exact List.map_id _
  have hlin_ne : linspace a b n ≠ [] := linspace_ne_nil a b (by omega)
  refine ⟨a, b, _, ha, hb, hfr, ?_, ?_, ?_, ?_⟩
  · rw [List.length_map, linspace_length]
  · rw [hmap]
    refine ⟨?_, ?_, ?_⟩
    · rw [head?_eq_getD hlin_ne, linspace_getD hn (by omega)]
      norm_num
    · rw [getLast?_eq_getD hlin_ne, linspace_length, linspace_getD hn (by omega)]
      have hcast : ((n - 1 : ℕ) : ℚ) = (n : ℚ) - 1 := by
        have h1 : 1 ≤ n := by omega
        push_cast [h1]
        ring
      have hne1 : ((n : ℚ) - 1) ≠ 0 := by linarith
      rw [hcast]
      field_simp
    · intro i j hi hj
      rw [linspace_length] at hi hj
      rw [linspace_getD hn hi, linspace_getD hn (by omega),
        linspace_getD hn hj, linspace_getD hn (by omega)]
      push_cast
      ring
  · rw [hmap]
    apply List.pairwise_iff_get.mpr
    intro i j hij
    rw [linspace_get hn i, linspace_get hn j]
    have hijq : ((i : ℕ) : ℚ) ≤ ((j : ℕ) : ℚ) := by
      exact_mod_cast le_of_lt hij
    have := mul_le_mul_of_nonneg_right hijq hg
    linarith
  · intro p hp
    rcases List.mem_map.mp hp with ⟨t, _, hpt⟩
    rw [← hpt]

/-- Witness for C8 at a concrete two-asset state (the one produced by
the optimizer constructor on a 2×2 return frame) with `n = 2`. -/
theorem C8_frontier_spec_witness :
    ((OptState.mk (ReturnsData.mk 2 [[1/100, 3/100], [2/100, 4/100]])
        [189/50, 441/50] [[63/5000, 63/5000], [63/5000, 63/5000]]).mean_returns ≠ []
      ∧ 2 ≤ 2) ∧
    FrontierClaim (OptState.mk (ReturnsData.mk 2 [[1/100, 3/100], [2/100, 4/100]])
        [189/50, 441/50] [[63/5000, 63/5000], [63/5000, 63/5000]])
      (fun _ => [1/2, 1/2]) 2 :=
  ⟨⟨by simp, le_refl 2⟩,
    C8_frontier_spec (OptState.mk (ReturnsData.mk 2 [[1/100, 3/100], [2/100, 4/100]])
        [189/50, 441/50] [[63/5000, 63/5000], [63/5000, 63/5000]])
      (fun _ => [1/2, 1/2]) 2 (by simp) (le_refl 2)⟩

/-- Counterexample to C8 as stated: on the valid two-asset optimizer
built from a 2×2 return frame (distinct mean returns 189/50 and 441/50
after annualization), `efficient_frontier` with `num_points = 1`
produces the single target `min(μ)` — `np.linspace(min, max, 1)` emits
only the start — so the targets are not evenly spaced between `min(μ)`
and `max(μ)` inclusive, refuting the claim for `num_points = 1`. -/
theorem C8_counterexample_single_point :
    PortfolioOptimizer.init (ReturnsData.mk 2 [[1/100, 3/100], [2/100, 4/100]])
      = .ok (OptState.mk (ReturnsData.mk 2 [[1/100, 3/100], [2/100, 4/100]])
          [189/50, 441/50] [[63/5000, 63/5000], [63/5000, 63/5000]]) ∧
    ¬ FrontierClaim (OptState.mk (ReturnsData.mk 2 [[1/100, 3/100], [2/100, 4/100]])
          [189/50, 441/50] [[63/5000, 63/5000], [63/5000, 63/5000]])
        (fun _ => [1/2, 1/2]) 1 := by
  constructor
  · norm_num [PortfolioOptimizer.init, colMean, colVals, sampleCov, List.range_succ]
  · intro h
    simp only [FrontierClaim] at h
    obtain ⟨a, b, pts, ha, hb, hfr, hlen, hsp, hsort, hvol⟩ := h
    have hmin : npMin [(189/50 : ℚ), 441/50] = some (189/50) := by
      norm_num [npMin, min_def]
    have hmax : npMax [(189/50 : ℚ), 441/50] = some (441/50) := by
      norm_num [npMax, max_def]
    have ha' : a = 189/50 := by
      rw [hmin] at ha
      exact (Option.some.inj ha).symm
    have hb' : b = 441/50 := by
      rw [hmax] at hb
      exact (Option.some.inj hb).symm
    have hlin : linspace (189/50 : ℚ) (441/50) 1 = [189/50] := by
      unfold linspace
      rw [if_pos rfl]
    have hfr' : efficient_frontier (OptState.mk
          (ReturnsData.mk 2 [[1/100, 3/100], [2/100, 4/100]])
          [189/50, 441/50] [[63/5000, 63/5000], [63/5000, 63/5000]])
        (fun _ => [1/2, 1/2]) 1
        = .ok [FrontierPoint.mk (189/50)
            (Real.sqrt (quadForm [[63/5000, 63/5000], [63/5000, 63/5000]] [1/2, 1/2]))
            [1/2, 1/2]] := by
      simp only [efficient_frontier, hmin, hmax, hlin, List.map_cons, List.map_nil]
    rw [hfr'] at hfr
    have hpts : pts = [FrontierPoint.mk (189/50)
        (Real.sqrt (quadForm [[63/5000, 63/5000], [63/5000, 63/5000]] [1/2, 1/2]))
        [1/2, 1/2]] := (Except.ok.inj hfr).symm
    obtain ⟨hhead, hlast, hgaps⟩ := hsp
    rw [hpts] at hlast
    simp only [List.map_cons, List.map_nil, List.getLast?_singleton] at hlast
    have hval : (189/50 : ℚ) = b := Option.some.inj hlast
    rw [hb'] at hval
    norm_num at hval

end PortfolioAnalytics
